import Mathlib

/-!
Verification model of the `coseq` library (MiguelCastillo/coseq).

The embedding below follows `src/unnamed/part_000` (the module that defines
`Action`, its subclasses, `buildActionSequence`, `syncSequence`,
`asyncSequence` and the `coseq` entry point).  Conventions:

* A data source (`dataIter`) is modelled as a list of the results its
  successive `next()` calls produce: `SrcRes.yield a` for `{value: a,
  done: false}` and `SrcRes.done r` for `{value: r, done: true}`.  Once the
  list is exhausted, further calls return `{done: true, value: undefined}`
  (`Option.none`), which is what an exhausted JS generator does.  The value
  argument that `dataIter.next(value)` receives is ignored, as every source
  in the specification (generators, collection iterators) ignores it.
* A stage (`Action` subclass instance) is modelled with its mutable state
  inline: `SkipUntilAction` carries its `_active` flag, and the
  `skip(count)` operator - which the source builds as
  `skipUntil(() => !(count-- > 0))` - carries both the `_active` flag and
  the captured `count` of that closure.  User functions may throw, which is
  modelled with `Except`.
* `MapAction`/`FilterAction`/`SkipUntilAction` invoke their `done` callback
  synchronously; `AwaitValueAction` and `DelayAction` invoke it only from a
  promise/timer callback, so under the synchronous strategy the `pushValue`
  loop of `syncSequence` spins forever on an unchanged result.  That
  behaviour is modelled by the `StageOut.stuckO` outcome and the
  `PullOut.hang` pull result.
-/

namespace Coseq

/-- One result of a `dataIter.next()` call of the underlying source:
either a yielded item or a completion signal carrying the source's return
value (`none` models JS `undefined`). -/
inductive SrcRes (α : Type) where
  | yield (a : α)
  | done (r : Option α)
deriving DecidableEq, Repr

/-- A pipeline stage: one `Action` subclass instance from
`src/unnamed/part_000`, with its instance-local mutable state inlined.
`skip active count` is the `SkipUntilAction` that `Action.skip` builds with
the predicate `() => !(count-- > 0)`; `skipUntil active p` is a
`SkipUntilAction` with a user predicate; `map`/`filter` are
`MapAction`/`FilterAction`; `awaitValue`/`delay` are `AwaitValueAction` and
`DelayAction`.  User functions return `Except` so that a throwing
transform/predicate can be modelled. -/
inductive Stage (ε α : Type) where
  | map (f : α → Except ε α)
  | filter (p : α → Except ε Bool)
  | skipUntil (active : Bool) (p : α → Except ε Bool)
  | skip (active : Bool) (count : Int)
  | awaitValue
  | delay (ms : Nat)

/-- Outcome of a single `exec` call of a stage, as seen by the
`doneCallback` built in `createNext`: the stage either emitted a value
(`done({value})`), requested a skip (`done({skip: true})`), or - for the
async-only stages driven synchronously - never invoked the callback
synchronously at all (`stuckO`). -/
inductive StageOut (α : Type) where
  | emitO (v : α)
  | skipO
  | stuckO

/-- Transcription of the `exec` methods of the `Action` subclasses in
`src/unnamed/part_000`.  Returns the callback outcome together with the
stage's updated state, wrapped in `Except` for a throwing user function,
plus the number of times the stage invoked its user-supplied function
(`this.fn`) during this call.

* `MapAction.exec`: `done({value: this.fn(value)})`.
* `FilterAction.exec`: `done({skip: !this.fn(value), value})`.
* `SkipUntilAction.exec`: `if (this._active && !this.fn(value))
  done({skip: true}); else { this._active = false; done({value}); }` -
  the predicate is only evaluated while `_active` is true (short-circuit),
  and a throw inside it leaves `_active` untouched.
* `Action.skip(count)` builds a `SkipUntilAction` whose predicate
  `() => !(count-- > 0)` decrements the captured counter on every call and
  is true exactly when the pre-decrement counter is not positive.
* `AwaitValueAction.exec` / `DelayAction.exec` only call `done` from a
  promise / `setTimeout` callback, never synchronously. -/
def execStage : Stage ε α → α → Except ε (StageOut α × Stage ε α) × Nat
  | .map f, a =>
    (match f a with
     | .ok b => .ok (.emitO b, .map f)
     | .error e => .error e, 1)
  | .filter p, a =>
    (match p a with
     | .ok b => .ok (if b then .emitO a else .skipO, .filter p)
     | .error e => .error e, 1)
  | .skipUntil active p, a =>
    if active then
      (match p a with
       | .ok true => .ok (.emitO a, .skipUntil false p)
       | .ok false => .ok (.skipO, .skipUntil true p)
       | .error e => .error e, 1)
    else
      (.ok (.emitO a, .skipUntil false p), 0)
  | .skip active count, a =>
    if active then
      if count > 0 then (.ok (.skipO, .skip true (count - 1)), 0)
      else (.ok (.emitO a, .skip false (count - 1)), 0)
    else
      (.ok (.emitO a, .skip false count), 0)
  | .awaitValue, _ => (.ok (.stuckO, .awaitValue), 0)
  | .delay ms, _ => (.ok (.stuckO, .delay ms), 0)

/-- Result of pushing one item through the (remaining) stage list: the
final signal, the updated stage list, and the total number of
user-function invocations made along the way. -/
inductive RunOut (ε α : Type) where
  | emit (v : α) (st : List (Stage ε α)) (calls : Nat)
  | skip (st : List (Stage ε α)) (calls : Nat)
  | err (e : ε) (st : List (Stage ε α)) (calls : Nat)
  | stuck (st : List (Stage ε α)) (calls : Nat)

/-- Push one item forward through the stages, as the `pushValue` loop of
`syncSequence` does: each iteration hands the current value to the next
stage's `exec`; an emitted value advances to the following stage, a skip
signal aborts the walk (the loop jumps back to the root iterator), a throw
propagates (stages already executed keep their updated state, the throwing
stage's own state is untouched), and an async-only stage leaves the loop
spinning (`stuck`). -/
def runStages (a : α) : List (Stage ε α) → RunOut ε α
  | [] => .emit a [] 0
  | s :: rest =>
    match execStage s a with
    | (.error e, n) => .err e (s :: rest) n
    | (.ok (.emitO v, s'), n) =>
      match runStages v rest with
      | .emit v' st m => .emit v' (s' :: st) (n + m)
      | .skip st m => .skip (s' :: st) (n + m)
      | .err e st m => .err e (s' :: st) (n + m)
      | .stuck st m => .stuck (s' :: st) (n + m)
    | (.ok (.skipO, s'), n) => .skip (s' :: rest) n
    | (.ok (.stuckO, s'), n) => .stuck (s' :: rest) n

/-- The `{value, done}` pair a pull hands to the consumer. -/
structure NextRes (α : Type) where
  value : Option α
  done : Bool
deriving DecidableEq, Repr

/-- Observable outcome of one pull-next call on a synchronously driven
pipeline: a `{value, done}` result, a propagated exception, or - when the
`pushValue` loop never terminates because a stage never calls `done`
synchronously - no return at all (`hang`). -/
inductive PullOut (ε α : Type) where
  | ok (r : NextRes α)
  | err (e : ε)
  | hang
deriving DecidableEq, Repr

/-- One pull-next call under the synchronous strategy (`syncSequence` of
`src/unnamed/part_000`, lines 217-228): ask the source for its next raw
item; a completion result is returned to the consumer directly, without
entering any stage; otherwise the item is pushed through the stages, and a
skip signal pulls the source again.  Returns the consumer-visible result,
the remaining source, the updated stage states, and the number of
user-function invocations. -/
def pullFrom : List (SrcRes α) → List (Stage ε α) →
    PullOut ε α × List (SrcRes α) × List (Stage ε α) × Nat
  | [], stages => (.ok ⟨none, true⟩, [], stages, 0)
  | .done r :: rest, stages => (.ok ⟨r, true⟩, rest, stages, 0)
  | .yield a :: rest, stages =>
    match runStages a stages with
    | .emit v st n => (.ok ⟨some v, false⟩, rest, st, n)
    | .skip st n =>
      match pullFrom rest st with
      | (o, src', st', m) => (o, src', st', n + m)
    | .err e st n => (.err e, rest, st, n)
    | .stuck st n => (.hang, rest, st, n)

/-- The result of the pull `k` pulls after the current one (`nthPull 0`
is the current pull). -/
def nthPull : Nat → List (SrcRes α) → List (Stage ε α) → PullOut ε α
  | 0, src, stages => (pullFrom src stages).1
  | k + 1, src, stages =>
    match pullFrom src stages with
    | (_, src', st', _) => nthPull k src' st'

/-- How a full drive of the pipeline ends: with the source's terminal
value, with a propagated exception, or never (a pull hung). -/
inductive DrainEnd (ε α : Type) where
  | term (r : Option α)
  | failed (e : ε)
  | hung
deriving DecidableEq, Repr

/-- Drive the pipeline to completion, as a `for .. of` loop over the
handle does: repeatedly pull-next, collecting the emitted items, until a
pull reports completion (or throws, or hangs).  Returns the emitted items
in order, how the drive ended, and the total number of user-function
invocations. -/
def drainFrom : List (SrcRes α) → List (Stage ε α) →
    List α × DrainEnd ε α × Nat
  | [], _ => ([], .term none, 0)
  | .done r :: _, _ => ([], .term r, 0)
  | .yield a :: rest, stages =>
    match runStages a stages with
    | .emit v st n =>
      match drainFrom rest st with
      | (vs, e, m) => (v :: vs, e, n + m)
    | .skip st n =>
      match drainFrom rest st with
      | (vs, e, m) => (vs, e, n + m)
    | .err e _ n => ([], .failed e, n)
    | .stuck _ n => ([], .hung, n)

/-- The call trace of a well-behaved source: it yields the items of `l`
in order and then completes with return value `r` (a generator that yields
`l` and returns `r`). -/
def srcOf (l : List α) (r : Option α) : List (SrcRes α) :=
  l.map .yield ++ [.done r]

/-! ## Chain building

The chain-building methods of `Action` each wrap the receiver in a new
subclass instance (`this.prev` points at the receiver), so a chain is a
forward list of stages ending at the `RootAction`; attaching an operator
appends a freshly initialised stage (with `_active = true`, and for
`skip(count)` the captured counter). -/

/-- `Action.map(transform)` / its alias `select`. -/
def attachMap (f : α → Except ε α) (st : List (Stage ε α)) : List (Stage ε α) :=
  st ++ [.map f]

/-- `Action.filter(predicate)` / its alias `where`. -/
def attachFilter (p : α → Except ε Bool) (st : List (Stage ε α)) : List (Stage ε α) :=
  st ++ [.filter p]

/-- `Action.skipUntil(predicate)`: a fresh `SkipUntilAction` with
`_active = true`. -/
def attachSkipUntil (p : α → Except ε Bool) (st : List (Stage ε α)) : List (Stage ε α) :=
  st ++ [.skipUntil true p]

/-- `Action.skip(count)`: `this.skipUntil(() => !(count-- > 0))` - a fresh
`SkipUntilAction` with `_active = true` whose predicate closes over
`count`. -/
def attachSkip (count : Int) (st : List (Stage ε α)) : List (Stage ε α) :=
  st ++ [.skip true count]

/-- `Action.awaitValue()`. -/
def attachAwaitValue (st : List (Stage ε α)) : List (Stage ε α) :=
  st ++ [.awaitValue]

/-- `Action.delay(timeout)`. -/
def attachDelay (ms : Nat) (st : List (Stage ε α)) : List (Stage ε α) :=
  st ++ [.delay ms]

/-- The methods the `Action` class of `src/unnamed/part_000` (lines 4-85)
defines on every chainable handle, in source order (`Symbol.iterator` and
`Symbol.asyncIterator` are listed by the names of the plain methods they
delegate to).  The subclasses (`ForEachAction`, `MapAction`,
`FilterAction`, `SkipUntilAction`, `AwaitValueAction`, `DelayAction`,
`RootAction`) add no further chain-building methods - `RootAction` adds
only `withStrategy`, which is recorded separately. -/
def chainMethods : List String :=
  ["awaitValue", "delay", "filter", "where", "map", "select",
   "skip", "skipUntil", "forEach", "iterator", "asyncIterator", "pull"]

/-! ## Strategy selection and pipeline handles

`buildActionSequence` walks the chain backwards and wraps each `Action` in
an `ActionIterator` holding only (a) a reference to that action and (b) a
`next` closure; it allocates no mutable state of its own.  Every piece of
mutable state - the source iterator held by the `RootAction`, the
`_active` flags and the `skip` counters held by the `Action` instances,
and the `strategy` field that `RootAction.withStrategy` assigns - lives on
the chain's `Action` objects, which every build of the same chain shares.
The shared mutable world is therefore modelled once, and a pipeline handle
is a stateless view onto it. -/

/-- Which strategy function `RootAction.withStrategy` stored last. -/
inductive StrategyTag where
  | sync
  | async
deriving DecidableEq, Repr

/-- The mutable state shared by every handle built from one descriptor
chain: the remaining source trace (held by the `RootAction`'s `dataIter`),
the per-stage mutable state (held by the `Action` instances), and the
`strategy` field of the `RootAction` (`none` until some `withStrategy`
call assigns it). -/
structure World (ε α : Type) where
  src : List (SrcRes α)
  stages : List (Stage ε α)
  strategy : Option StrategyTag

/-- `RootAction.withStrategy(strategy)`: stores the strategy function on
the root action (mutating the chain's single shared root) and returns the
receiver. -/
def rootWithStrategy (s : StrategyTag) (w : World ε α) : World ε α :=
  { w with strategy := some s }

/-- The error thrown by `ActionIterator.withStrategy` on a non-root
iterator (`new TypeError("Only root actions can have a strategy")`). -/
inductive JsErr where
  | typeError
deriving DecidableEq, Repr

/-- `ActionIterator.withStrategy(strategy)`: throws a `TypeError`
synchronously unless the wrapped action is the `RootAction`; otherwise
forwards to `RootAction.withStrategy`.  `isRoot` says whether the iterator
wraps the root action. -/
def iterWithStrategy (isRoot : Bool) (s : StrategyTag) (w : World ε α) :
    Except JsErr (World ε α) :=
  if isRoot then .ok (rootWithStrategy s w) else .error .typeError

/-- `Action.iterator()`: `buildActionSequence(this).withStrategy(syncSequence)`.
Building allocates no mutable state, so the only effect on the shared
world is storing the sync strategy on the root. -/
def iteratorBuild (w : World ε α) : World ε α :=
  rootWithStrategy .sync w

/-- `Action.asyncIterator()`:
`buildActionSequence(this).withStrategy(asyncSequence)`. -/
def asyncIteratorBuild (w : World ε α) : World ε α :=
  rootWithStrategy .async w

/-- The shared-world effect of `Action.forEach(cb)`:
`buildActionSequence(new ForEachAction(this, cb)).withStrategy(asyncSequence)`
stores the async strategy on the same shared root (the appended
`ForEachAction` and the drain loop are private to the returned promise and
are not modelled here). -/
def forEachBuild (w : World ε α) : World ε α :=
  rootWithStrategy .async w

/-- What a pull-next call on a handle returns, as far as the synchronous
embedding can observe: a plain result computed by `syncSequence`, a
promise when the root dispatches to `asyncSequence` (its deferred
continuation is outside this model), or a `TypeError` when the root has no
strategy function stored (`this.strategy` is `undefined`). -/
inductive HandleOut (ε α : Type) where
  | res (o : PullOut ε α)
  | promise
  | noStrategy
deriving DecidableEq, Repr

/-- One `next(value)` call on a pipeline handle: `RootAction.exec`
dispatches to whatever `this.strategy` currently holds.  Under
`syncSequence` the pull runs to completion synchronously; under
`asyncSequence` only `dataIter.next(value)` happens synchronously (inside
`Promise.resolve(...)`) and a promise is returned, so the synchronous
effect on the shared world is consuming one source result. -/
def handleNext (w : World ε α) : HandleOut ε α × World ε α :=
  match w.strategy with
  | some .sync =>
    match pullFrom w.src w.stages with
    | (o, src', st', _) => (.res o, { w with src := src', stages := st' })
  | some .async => (.promise, { w with src := w.src.drop 1 })
  | none => (.noStrategy, w)

/-! ## The synchronous trampoline as a step machine

`syncSequence` evaluates a pull with a `while` loop over a single
`result` record (`{done, iter, value}`): each iteration hands the value to
the iterator the previous outcome designated (the next stage, or the root
on a skip) and overwrites `result` through the `queueResult` callback,
which the callee invokes synchronously before returning.  The loop body is
therefore a fixed, non-recursive amount of work, and a whole pull is the
iteration of that body.  `syncStep` is that loop body; `syncRun` iterates
it.  A configuration records what the `result` record and the closure
context designate: `pull` - the root is about to be asked for the next raw
item; `walk` - a value is in flight, about to enter the first stage of
`rest`, with the already-executed stages (in reverse) in `accRev`. -/
inductive SyncConf (ε α : Type) where
  | pull (src : List (SrcRes α)) (stages : List (Stage ε α))
  | walk (src : List (SrcRes α)) (a : α) (accRev rest : List (Stage ε α))

/-- One iteration of the `syncSequence` loop.  `Sum.inl` is the next
configuration; `Sum.inr` is the value the pull returns to the consumer
(result, remaining source, stage states).  A stage that never invokes its
callback synchronously (`stuckO`) leaves `result` unchanged, so the loop
re-enters the very same configuration. -/
def syncStep : SyncConf ε α →
    SyncConf ε α ⊕ (PullOut ε α × List (SrcRes α) × List (Stage ε α))
  | .pull [] stages => .inr (.ok ⟨none, true⟩, [], stages)
  | .pull (.done r :: rest) stages => .inr (.ok ⟨r, true⟩, rest, stages)
  | .pull (.yield a :: rest) stages => .inl (.walk rest a [] stages)
  | .walk src a accRev [] => .inr (.ok ⟨some a, false⟩, src, accRev.reverse)
  | .walk src a accRev (s :: rest) =>
    match (execStage s a).1 with
    | .error e => .inr (.err e, src, accRev.reverse ++ (s :: rest))
    | .ok (.emitO v, s') => .inl (.walk src v (s' :: accRev) rest)
    | .ok (.skipO, s') => .inl (.pull src (accRev.reverse ++ (s' :: rest)))
    | .ok (.stuckO, _) => .inl (.walk src a accRev (s :: rest))

/-- Iterate `syncStep` at most `n` times; `none` means the loop had not
returned after `n` iterations. -/
def syncRun : Nat → SyncConf ε α →
    Option (PullOut ε α × List (SrcRes α) × List (Stage ε α))
  | 0, _ => none
  | n + 1, c =>
    match syncStep c with
    | .inr out => some out
    | .inl c' => syncRun n c'

/-! ## Auxiliary predicates and projections -/

/-- Whether a source result is the `{done: true, value: undefined}` an
exhausted generator keeps returning. -/
def isDoneNone : SrcRes α → Bool
  | .done none => true
  | _ => false

/-- A latching source: after its first completion result every further
`next()` call returns `{done: true, value: undefined}`.  JS generators
behave this way; arbitrary hand-written iterators need not. -/
def latchSrcB : List (SrcRes α) → Bool
  | [] => true
  | .yield _ :: rest => latchSrcB rest
  | .done _ :: rest => rest.all isDoneNone

/-- A stage whose synchronous evaluation always succeeds: its user
function never throws, and it is not one of the async-only stages. -/
def StagePure : Stage ε α → Prop
  | .map f => ∀ a, ∃ b, f a = .ok b
  | .filter p => ∀ a, ∃ b, p a = .ok b
  | .skipUntil _ p => ∀ a, ∃ b, p a = .ok b
  | .skip _ _ => True
  | .awaitValue => False
  | .delay _ => False

/-- Every stage of the chain is pure in the sense of `StagePure`. -/
def StagesPure (st : List (Stage ε α)) : Prop :=
  ∀ s ∈ st, StagePure s

/-- The observable mutable flags of a stage list: the `_active` flag of
each `SkipUntilAction` (`none` for stateless stages). -/
def activeFlags : List (Stage ε α) → List (Option Bool) :=
  List.map fun s =>
    match s with
    | .skipUntil a _ => some a
    | .skip a _ => some a
    | _ => none

/-! ## Concrete fixtures used by counterexamples and witnesses -/

/-- A transform that throws on the item `5` and doubles anything else. -/
def throwOn5 : Int → Except Unit Int :=
  fun a => if a = 5 then .error () else .ok (a * 2)

/-- The total predicate `1 ≤ a`. -/
def geOne : Int → Except Unit Bool :=
  fun a => .ok (decide (1 ≤ a))

/-- The total predicate `20 ≤ a`. -/
def geTwenty : Int → Except Unit Bool :=
  fun a => .ok (decide (20 ≤ a))

/-- Source yielding `5, 7` and returning `undefined`. -/
def errSrc : List (SrcRes Int) := srcOf [5, 7] none

/-- Chain `skipUntil(a => 1 <= a).map(throwOn5)`. -/
def errStages : List (Stage Unit Int) :=
  attachMap throwOn5 (attachSkipUntil geOne [])

/-- Shared world of the chain `coseq(src).skipUntil(a => 20 <= a)` over
the source `10, 20, 30`, before any pipeline is built from it. -/
def shareW : World Unit Int :=
  { src := srcOf [10, 20, 30] none
    stages := attachSkipUntil geTwenty []
    strategy := none }

/-- Shared world of `coseq(src).awaitValue()` over the source `1`, after
`iterator()` selected the synchronous strategy. -/
def awaitW : World Unit Int :=
  { src := [.yield 1]
    stages := attachAwaitValue []
    strategy := some .sync }

/-- A non-latching source: its first `next()` reports completion with
return value `99`, its second yields `7`. -/
def resurrectSrc : List (SrcRes Int) := [.done (some 99), .yield 7]

/-! ## Theorems -/

/-- C3.  The chainable handle does NOT provide a `take` operation: the
`Action` class of `src/unnamed/part_000` (the repository's own README
documents `take`, `takeUntil` and `takeWhile`) defines no such method, so
`coseq(src).take(3)` throws a `TypeError` instead of limiting the
sequence. -/
theorem take_not_a_chain_method :
    "take" ∉ chainMethods ∧ "takeUntil" ∉ chainMethods ∧ "takeWhile" ∉ chainMethods := by
  refine ⟨?_, ?_, ?_⟩ <;> decide

/-- C10.  The execution strategy is stored mutably on the single root
descriptor shared by every handle built from a chain: `iterator()` stores
`syncSequence`, a later `asyncIterator()` (or `forEach`) overwrites that
same field with `asyncSequence`, and a pull issued through any
previously built handle dispatches through whatever the field holds now -
after `iterator(); asyncIterator()` a pull returns a promise, and after
`asyncIterator(); iterator()` a pull runs synchronously. -/
theorem strategy_shared_mutable_dispatch :
    ∀ (ε α : Type) (w : World ε α),
      (iteratorBuild w).strategy = some StrategyTag.sync
      ∧ (iteratorBuild w).src = w.src
      ∧ (iteratorBuild w).stages = w.stages
      ∧ (asyncIteratorBuild (iteratorBuild w)).strategy = some StrategyTag.async
      ∧ (forEachBuild w).strategy = some StrategyTag.async
      ∧ (handleNext (asyncIteratorBuild (iteratorBuild w))).1 = HandleOut.promise
      ∧ (handleNext (iteratorBuild (asyncIteratorBuild w))).1
          = HandleOut.res (pullFrom w.src w.stages).1 := by
  intro ε α w
  refine ⟨rfl, rfl, rfl, rfl, rfl, rfl, ?_⟩
  rcases h : pullFrom w.src w.stages with ⟨o, src', st', n⟩
  simp [handleNext, iteratorBuild, asyncIteratorBuild, rootWithStrategy, h]

/-- C1, counterexample.  Building two pipelines from the same chain does
not isolate them: over the chain `coseq([10,20,30]).skipUntil(a => 20 <= a)`,
a pipeline driven alone emits `20` first, but after one pull on the other
handle (which consumed `10` and `20` from the shared source and cleared
the shared `_active` flag) its first pull emits `30` instead - one
handle's stateful skip progress changed the items the other emits. -/
theorem rebuild_pipelines_interfere :
    (handleNext (iteratorBuild (iteratorBuild shareW))).1
      = HandleOut.res (.ok ⟨some 20, false⟩)
    ∧ (handleNext (handleNext (iteratorBuild (iteratorBuild shareW))).2).1
      = HandleOut.res (.ok ⟨some 30, false⟩) := by
  exact ⟨by decide, by decide⟩

/-- C1, amended.  `buildActionSequence` allocates no per-build mutable
state: all of it (source position, `_active` flags, `skip` counters, the
strategy field) lives on the `Action` objects of the chain, so building a
second pipeline from the same chain is a no-op on the shared world
(`iteratorBuild` is idempotent and touches neither source nor stages) and
both handles alias one pipeline - interleaved pulls interfere, as the
`skipUntil` chain over `10,20,30` shows (`20` alone vs `30` after the
other handle pulled once). -/
theorem rebuild_shares_all_state :
    (∀ (ε α : Type) (w : World ε α),
      iteratorBuild (iteratorBuild w) = iteratorBuild w
      ∧ (iteratorBuild w).src = w.src
      ∧ (iteratorBuild w).stages = w.stages
      ∧ asyncIteratorBuild (asyncIteratorBuild w) = asyncIteratorBuild w)
    ∧ (handleNext (iteratorBuild shareW)).1 = HandleOut.res (.ok ⟨some 20, false⟩)
    ∧ (handleNext (handleNext (iteratorBuild shareW)).2).1
        = HandleOut.res (.ok ⟨some 30, false⟩) := by
  refine ⟨fun ε α w => ⟨rfl, rfl, rfl, rfl⟩, by decide, by decide⟩

/-- C7, counterexample.  Requesting the async-only `awaitValue` capability
on a synchronously driven pipeline is NOT signaled at the offending call:
attaching it merely builds a descriptor (no check anywhere), and the
offending pull does not throw either - `AwaitValueAction.exec` never
invokes its callback synchronously, so the `pushValue` loop of
`syncSequence` spins forever (`hang`), instead of an immediate synchronous
error. -/
theorem awaitValue_misuse_not_signaled :
    attachAwaitValue ([] : List (Stage Unit Int)) = [Stage.awaitValue]
    ∧ (handleNext awaitW).1 = HandleOut.res PullOut.hang := by
  exact ⟨rfl, by decide⟩

/-- C7, amended.  Of the two misuse errors only the strategy one is
signaled: `ActionIterator.withStrategy` throws a `TypeError` synchronously
at call time when its action is not the root (and stores the strategy when
it is); but an async-only stage (`awaitValue`, `delay`) on a synchronously
driven pipeline raises nothing at any point - the pull that reaches it
never returns. -/
theorem misuse_signaling_split :
    (∀ (ε α : Type) (s : StrategyTag) (w : World ε α),
      iterWithStrategy false s w = .error JsErr.typeError)
    ∧ (∀ (ε α : Type) (s : StrategyTag) (w : World ε α),
      iterWithStrategy true s w = .ok (rootWithStrategy s w))
    ∧ (∀ (ε α : Type) (a : α) (src : List (SrcRes α)) (rest : List (Stage ε α)),
      pullFrom (SrcRes.yield a :: src) (Stage.awaitValue :: rest)
        = (PullOut.hang, src, Stage.awaitValue :: rest, 0))
    ∧ (∀ (ε α : Type) (a : α) (ms : Nat) (src : List (SrcRes α)) (rest : List (Stage ε α)),
      pullFrom (SrcRes.yield a :: src) (Stage.delay ms :: rest)
        = (PullOut.hang, src, Stage.delay ms :: rest, 0)) := by
  refine ⟨fun ε α s w => rfl, fun ε α s w => rfl, fun ε α a src rest => ?_,
    fun ε α a ms src rest => ?_⟩ <;> simp [pullFrom, runStages, execStage]

/-- C2, counterexample.  The pipeline latches nothing: after a pull has
reported `done` (here with terminal value `99`), the next pull calls the
underlying source's `next()` again, and if the source is not itself
latching (the iterator protocol does not require it to be) the pipeline
emits further items - here `{value: 7, done: false}` right after the
completed signal. -/
theorem pull_after_done_not_latched :
    (pullFrom resurrectSrc ([] : List (Stage Unit Int))).1 = PullOut.ok ⟨some 99, true⟩
    ∧ nthPull 1 resurrectSrc ([] : List (Stage Unit Int)) = PullOut.ok ⟨some 7, false⟩ := by
  exact ⟨by decide, by decide⟩

/-- C6, counterexample.  A throwing transform does not leave the pipeline
in its pre-pull state: over `skipUntil(a => 1 <= a).map(throwOn5)` on the
source `5, 7`, the first pull propagates the error, but the
`SkipUntilAction` was already deactivated (`_active` flipped from `true`
to `false`) and the item `5` was already consumed from the source before
the `map` stage threw. -/
theorem operator_throw_mutates_state :
    (pullFrom errSrc errStages).1 = PullOut.err ()
    ∧ activeFlags errStages = [some true, none]
    ∧ activeFlags (pullFrom errSrc errStages).2.2.1 = [some false, none]
    ∧ (pullFrom errSrc errStages).2.1 = [SrcRes.yield 7, SrcRes.done none] := by
  exact ⟨by decide, by decide, by decide, by decide⟩

/-- C6, amended.  A throwing transform/predicate propagates to the caller
of the pull that evaluated it (synchronously, under the sync strategy),
and the pipeline is not marked done - the next pull re-invokes the root
and may produce further items (here `14`); but the failed pull is not
transactional: the source results it consumed stay consumed and stage
state mutated before the throw (the cleared `_active` flag) persists. -/
theorem operator_throw_per_pull :
    (∀ (ε α : Type) (src : List (SrcRes α)) (stages : List (Stage ε α)) (a : α)
       (e : ε) (st : List (Stage ε α)) (n : Nat),
      runStages a stages = RunOut.err e st n →
      pullFrom (SrcRes.yield a :: src) stages = (PullOut.err e, src, st, n))
    ∧ nthPull 1 errSrc errStages = PullOut.ok ⟨some 14, false⟩
    ∧ activeFlags (pullFrom errSrc errStages).2.2.1 = [some false, none] := by
  refine ⟨fun ε α src stages a e st n h => ?_, by decide, by decide⟩
  simp [pullFrom, h]

/-- Witness: the general error-propagation part of
`operator_throw_per_pull` applied to the concrete throwing pull of the
`skipUntil.map` chain on item `5`. -/
theorem operator_throw_per_pull_witness :
    pullFrom (SrcRes.yield 5 :: [SrcRes.yield 7, SrcRes.done none]) errStages
      = (PullOut.err (), [SrcRes.yield 7, SrcRes.done none],
         [Stage.skipUntil false geOne, Stage.map throwOn5], 2) :=
  operator_throw_per_pull.1 Unit Int [SrcRes.yield 7, SrcRes.done none] errStages 5 ()
    [Stage.skipUntil false geOne, Stage.map throwOn5] 2 rfl

/-- A pull whose remaining source keeps answering
`{done: true, value: undefined}` returns the completed signal, consumes
one more source answer (the source IS re-invoked), and leaves every stage
untouched with zero user-function invocations. -/
theorem pull_allDoneNone (src : List (SrcRes α)) (stages : List (Stage ε α))
    (h : src.all isDoneNone = true) :
    pullFrom src stages = (PullOut.ok ⟨none, true⟩, src.tail, stages, 0) := by
  cases src with
  | nil => rfl
  | cons s rest =>
    cases s with
    | yield a => simp [isDoneNone] at h
    | done r =>
      cases r with
      | none => rfl
      | some v => simp [isDoneNone] at h

/-- Iterating pulls over an exhausted-and-latching remainder always
reports the completed signal with an undefined value. -/
theorem nthPull_allDoneNone :
    ∀ (k : Nat) (src : List (SrcRes α)) (stages : List (Stage ε α)),
      src.all isDoneNone = true →
      nthPull k src stages = PullOut.ok ⟨none, true⟩ := by
  intro k
  induction k with
  | zero =>
    intro src stages h
    simp [nthPull, pull_allDoneNone src stages h]
  | succ k ih =>
    intro src stages h
    have htail : src.tail.all isDoneNone = true := by
      cases src with
      | nil => simp
      | cons s r =>
        simp only [List.tail_cons]
        simp [List.all_cons] at h
        simpa using h.2
    simp [nthPull, pull_allDoneNone src stages h, ih _ _ htail]

/-- If a pull over a latching source reports completion, the remaining
source trace consists only of `{done: true, value: undefined}` answers. -/
theorem latch_pull_done :
    ∀ (src : List (SrcRes α)) (stages : List (Stage ε α)) (r : Option α),
      latchSrcB src = true →
      (pullFrom src stages).1 = PullOut.ok ⟨r, true⟩ →
      ((pullFrom src stages).2.1).all isDoneNone = true := by
  intro src
  induction src with
  | nil => intro stages r _ _; simp [pullFrom]
  | cons s rest ih =>
    intro stages r hl hd
    cases s with
    | done r' =>
      simp only [latchSrcB] at hl
      simp only [pullFrom]
      simpa using hl
    | yield a =>
      simp only [latchSrcB] at hl
      rcases hr : runStages a stages with ⟨v, st, n⟩ | ⟨st, n⟩ | ⟨e, st, n⟩ | ⟨st, n⟩
      · simp [pullFrom, hr] at hd
      · rcases hp : pullFrom rest st with ⟨o, s2, t2, m⟩
        simp only [pullFrom, hr, hp] at hd ⊢
        have := ih st r hl
        rw [hp] at this
        exact this hd
      · simp [pullFrom, hr] at hd
      · simp [pullFrom, hr] at hd

/-- C2, amended.  There is no internal `done` latch: every pull re-invokes
the underlying source's `next()`.  Provided the source itself latches
(once complete it keeps answering `{done: true, value: undefined}`, as JS
generators do), every pull after the one that reported `done` returns
`done` with an undefined value; each such pull still consumes a source
answer and leaves every stage untouched with zero user-function calls. -/
theorem pull_after_done_latching_source :
    ∀ (ε α : Type) (src : List (SrcRes α)) (stages : List (Stage ε α)) (r : Option α),
      latchSrcB src = true →
      (pullFrom src stages).1 = PullOut.ok ⟨r, true⟩ →
      (∀ k, nthPull k (pullFrom src stages).2.1 (pullFrom src stages).2.2.1
          = PullOut.ok ⟨none, true⟩)
      ∧ (∀ (src₂ : List (SrcRes α)) (stages₂ : List (Stage ε α)),
          src₂.all isDoneNone = true →
          pullFrom src₂ stages₂ = (PullOut.ok ⟨none, true⟩, src₂.tail, stages₂, 0)) := by
  intro ε α src stages r hl hd
  exact ⟨fun k => nthPull_allDoneNone k _ _ (latch_pull_done src stages r hl hd),
    fun src₂ stages₂ h₂ => pull_allDoneNone src₂ stages₂ h₂⟩

/-- Witness: `pull_after_done_latching_source` on the latching source that
returns `5` and then stays exhausted. -/
theorem pull_after_done_latching_source_witness :
    nthPull 2 ([] : List (SrcRes Int)) ([] : List (Stage Unit Int))
      = PullOut.ok ⟨none, true⟩ :=
  (pull_after_done_latching_source Unit Int [SrcRes.done (some 5)] [] (some 5)
    (by decide) (by decide)).1 2

/-- Unfolding lemma: `srcOf` on a cons. -/
theorem srcOf_cons (a : α) (l : List α) (r : Option α) :
    srcOf (a :: l) r = SrcRes.yield a :: srcOf l r := rfl

/-- Unfolding lemma: a drain step whose stage walk emits a value. -/
theorem drainFrom_cons_emit {a v : α} {stages st : List (Stage ε α)} {n : Nat}
    (h : runStages a stages = RunOut.emit v st n) (rest : List (SrcRes α)) :
    drainFrom (SrcRes.yield a :: rest) stages
      = (v :: (drainFrom rest st).1, (drainFrom rest st).2.1,
         n + (drainFrom rest st).2.2) := by
  rcases hd : drainFrom rest st with ⟨vs, e, m⟩
  simp [drainFrom, h, hd]

/-- Unfolding lemma: a drain step whose stage walk signals a skip. -/
theorem drainFrom_cons_skip {a : α} {stages st : List (Stage ε α)} {n : Nat}
    (h : runStages a stages = RunOut.skip st n) (rest : List (SrcRes α)) :
    drainFrom (SrcRes.yield a :: rest) stages
      = ((drainFrom rest st).1, (drainFrom rest st).2.1,
         n + (drainFrom rest st).2.2) := by
  rcases hd : drainFrom rest st with ⟨vs, e, m⟩
  simp [drainFrom, h, hd]

/-- A `skip` stage whose `_active` flag has been cleared passes every item
through unchanged and never touches its counter again. -/
theorem drain_skip_inactive :
    ∀ (ε α : Type) (c : Int) (l : List α) (r : Option α),
      drainFrom (srcOf l r) [Stage.skip (ε := ε) false c] = (l, DrainEnd.term r, 0) := by
  intro ε α c l r
  induction l with
  | nil => rfl
  | cons a l ih =>
    have hrun : runStages a [Stage.skip (ε := ε) false c]
        = RunOut.emit a [Stage.skip false c] 0 := rfl
    rw [srcOf_cons, drainFrom_cons_emit hrun, ih]
    rfl

/-- While its `_active` flag is set, a `skip` stage drops exactly
`count.toNat` leading items (the closure predicate `() => !(count-- > 0)`
stops skipping once the counter is no longer positive). -/
theorem drain_skip_active :
    ∀ (ε α : Type) (l : List α) (c : Int) (r : Option α),
      drainFrom (srcOf l r) [Stage.skip (ε := ε) true c]
        = (l.drop c.toNat, DrainEnd.term r, 0) := by
  intro ε α l
  induction l with
  | nil => intro c r; simp [srcOf, drainFrom]
  | cons a l ih =>
    intro c r
    by_cases hc : c > 0
    · have hrun : runStages a [Stage.skip (ε := ε) true c]
          = RunOut.skip [Stage.skip true (c - 1)] 0 := by
        simp [runStages, execStage, hc]
      have hn : c.toNat = (c - 1).toNat + 1 := by omega
      rw [srcOf_cons, drainFrom_cons_skip hrun, ih (c - 1) r, hn]
      simp
    · have hrun : runStages a [Stage.skip (ε := ε) true c]
          = RunOut.emit a [Stage.skip false (c - 1)] 0 := by
        simp [runStages, execStage, hc]
      have hn : c.toNat = 0 := by omega
      rw [srcOf_cons, drainFrom_cons_emit hrun, drain_skip_inactive ε α (c - 1) l r, hn]
      simp

/-- C4.  `skip(n)` with no other operator attached drops exactly the first
`n` items: the pipeline emits the source's items from index `n+1` onward,
in order, and then the source's terminal value (all of the items, if the
source has fewer than `n`). -/
theorem skip_drops_first_n :
    ∀ (ε α : Type) (n : Nat) (l : List α) (r : Option α),
      drainFrom (srcOf l r) (attachSkip (n : Int) ([] : List (Stage ε α)))
        = (l.drop n, DrainEnd.term r, 0) := by
  intro ε α n l r
  have h := drain_skip_active ε α l (n : Int) r
  simpa [attachSkip] using h

/-- A `SkipUntilAction` whose `_active` flag has been cleared passes every
item through unchanged and never evaluates its predicate again (zero
user-function invocations, for any predicate). -/
theorem drain_skipUntil_inactive :
    ∀ (ε α : Type) (q : α → Except ε Bool) (l : List α) (r : Option α),
      drainFrom (srcOf l r) [Stage.skipUntil false q] = (l, DrainEnd.term r, 0) := by
  intro ε α q l r
  induction l with
  | nil => rfl
  | cons a l ih =>
    have hrun : runStages a [Stage.skipUntil false q]
        = RunOut.emit a [Stage.skipUntil false q] 0 := rfl
    rw [srcOf_cons, drainFrom_cons_emit hrun, ih]
    rfl

/-- C5.  `skipUntil(p)` skips exactly the maximal prefix of items on which
`p` is falsy; the first truthy item and everything after it pass through.
The predicate is evaluated once per skipped item plus once on the ending
item (never afterwards: once `_active` is cleared the drain makes zero
predicate calls, whatever the predicate is - second conjunct).  If `p` is
never truthy every item is skipped and only the terminal value remains. -/
theorem skipUntil_drops_falsy_prefix :
    ∀ (ε α : Type) (p : α → Bool) (l : List α) (r : Option α),
      (drainFrom (srcOf l r)
          (attachSkipUntil (fun a => Except.ok (p a)) ([] : List (Stage ε α)))
        = (l.dropWhile (fun a => !p a), DrainEnd.term r,
           (l.takeWhile (fun a => !p a)).length + (if l.any p then 1 else 0)))
      ∧ (∀ (q : α → Except ε Bool) (l' : List α) (r' : Option α),
          drainFrom (srcOf l' r') [Stage.skipUntil false q] = (l', DrainEnd.term r', 0)) := by
  intro ε α p l r
  refine ⟨?_, fun q l' r' => drain_skipUntil_inactive ε α q l' r'⟩
  show drainFrom (srcOf l r) [Stage.skipUntil true fun a => Except.ok (p a)] = _
  induction l with
  | nil => simp [srcOf, drainFrom]
  | cons a l ih =>
    by_cases hp : p a
    · have hrun : runStages a [Stage.skipUntil true fun a => Except.ok (ε := ε) (p a)]
          = RunOut.emit a [Stage.skipUntil false fun a => Except.ok (p a)] 1 := by
        simp [runStages, execStage, hp]
      rw [srcOf_cons, drainFrom_cons_emit hrun,
        drain_skipUntil_inactive ε α (fun a => Except.ok (p a)) l r]
      simp [List.dropWhile_cons, List.takeWhile_cons, hp]
    · have hrun : runStages a [Stage.skipUntil true fun a => Except.ok (ε := ε) (p a)]
          = RunOut.skip [Stage.skipUntil true fun a => Except.ok (p a)] 1 := by
        simp [runStages, execStage, hp]
      rw [srcOf_cons, drainFrom_cons_skip hrun, ih]
      simp only [Prod.mk.injEq]
      refine ⟨by simp [List.dropWhile_cons, hp], by trivial, ?_⟩
      simp only [List.takeWhile_cons, hp, List.any_cons, Bool.false_or,
        List.length_cons]
      by_cases hany : l.any p = true
      · simp [hany, hp]
        omega
      · simp [hany, hp]
        omega

/-- `StagesPure` on a cons splits. -/
theorem stagesPure_cons {s : Stage ε α} {st : List (Stage ε α)} :
    StagesPure (s :: st) ↔ StagePure s ∧ StagesPure st := by
  constructor
  · exact fun h => ⟨h s (List.mem_cons_self _ _), fun x hx => h x (List.mem_cons_of_mem _ hx)⟩
  · rintro ⟨h1, h2⟩ x hx
    rcases List.mem_cons.1 hx with h | h
    · exact h ▸ h1
    · exact h2 x h

/-- Pushing an item through a chain of pure stages never throws and never
gets stuck: it either emits a value or signals a skip, and the updated
stages are pure again. -/
theorem runStages_pure :
    ∀ (a : α) (st : List (Stage ε α)), StagesPure st →
      (∃ v st' n, runStages a st = RunOut.emit v st' n ∧ StagesPure st')
      ∨ (∃ st' n, runStages a st = RunOut.skip st' n ∧ StagesPure st') := by
  intro a st
  induction st generalizing a with
  | nil => intro h; exact .inl ⟨a, [], 0, rfl, h⟩
  | cons s rest ih =>
    intro h
    rcases stagesPure_cons.1 h with ⟨hs, hrest⟩
    cases s with
    | map f =>
      obtain ⟨b, hb⟩ := hs a
      rcases ih b hrest with ⟨v, st', n, hr, hp⟩ | ⟨st', n, hr, hp⟩
      · exact .inl ⟨v, .map f :: st', 1 + n, by simp [runStages, execStage, hb, hr],
          stagesPure_cons.2 ⟨hs, hp⟩⟩
      · exact .inr ⟨.map f :: st', 1 + n, by simp [runStages, execStage, hb, hr],
          stagesPure_cons.2 ⟨hs, hp⟩⟩
    | filter p =>
      obtain ⟨b, hb⟩ := hs a
      cases b with
      | true =>
        rcases ih a hrest with ⟨v, st', n, hr, hp⟩ | ⟨st', n, hr, hp⟩
        · exact .inl ⟨v, .filter p :: st', 1 + n, by simp [runStages, execStage, hb, hr],
            stagesPure_cons.2 ⟨hs, hp⟩⟩
        · exact .inr ⟨.filter p :: st', 1 + n, by simp [runStages, execStage, hb, hr],
            stagesPure_cons.2 ⟨hs, hp⟩⟩
      | false =>
        exact .inr ⟨.filter p :: rest, 1, by simp [runStages, execStage, hb],
          stagesPure_cons.2 ⟨hs, hrest⟩⟩
    | skipUntil active p =>
      cases active with
      | false =>
        rcases ih a hrest with ⟨v, st', n, hr, hp⟩ | ⟨st', n, hr, hp⟩
        · exact .inl ⟨v, .skipUntil false p :: st', 0 + n, by simp [runStages, execStage, hr],
            stagesPure_cons.2 ⟨hs, hp⟩⟩
        · exact .inr ⟨.skipUntil false p :: st', 0 + n, by simp [runStages, execStage, hr],
            stagesPure_cons.2 ⟨hs, hp⟩⟩
      | true =>
        obtain ⟨b, hb⟩ := hs a
        cases b with
        | true =>
          rcases ih a hrest with ⟨v, st', n, hr, hp⟩ | ⟨st', n, hr, hp⟩
          · exact .inl ⟨v, .skipUntil false p :: st', 1 + n,
              by simp [runStages, execStage, hb, hr], stagesPure_cons.2 ⟨hs, hp⟩⟩
          · exact .inr ⟨.skipUntil false p :: st', 1 + n,
              by simp [runStages, execStage, hb, hr], stagesPure_cons.2 ⟨hs, hp⟩⟩
        | false =>
          exact .inr ⟨.skipUntil true p :: rest, 1, by simp [runStages, execStage, hb],
            stagesPure_cons.2 ⟨hs, hrest⟩⟩
    | skip active c =>
      cases active with
      | false =>
        rcases ih a hrest with ⟨v, st', n, hr, hp⟩ | ⟨st', n, hr, hp⟩
        · exact .inl ⟨v, .skip false c :: st', 0 + n, by simp [runStages, execStage, hr],
            stagesPure_cons.2 ⟨trivial, hp⟩⟩
        · exact .inr ⟨.skip false c :: st', 0 + n, by simp [runStages, execStage, hr],
            stagesPure_cons.2 ⟨trivial, hp⟩⟩
      | true =>
        by_cases hc : c > 0
        · exact .inr ⟨.skip true (c - 1) :: rest, 0, by simp [runStages, execStage, hc],
            stagesPure_cons.2 ⟨trivial, hrest⟩⟩
        · rcases ih a hrest with ⟨v, st', n, hr, hp⟩ | ⟨st', n, hr, hp⟩
          · exact .inl ⟨v, .skip false (c - 1) :: st', 0 + n,
              by simp [runStages, execStage, hc, hr], stagesPure_cons.2 ⟨trivial, hp⟩⟩
          · exact .inr ⟨.skip false (c - 1) :: st', 0 + n,
              by simp [runStages, execStage, hc, hr], stagesPure_cons.2 ⟨trivial, hp⟩⟩
    | awaitValue => exact hs.elim
    | delay ms => exact hs.elim

/-- Draining a chain of pure stages always ends with the source's terminal
value. -/
theorem drain_pure_term :
    ∀ (l : List α) (r : Option α) (stages : List (Stage ε α)), StagesPure stages →
      (drainFrom (srcOf l r) stages).2.1 = DrainEnd.term r := by
  intro l r
  induction l with
  | nil => intro stages _; rfl
  | cons a l ih =>
    intro stages h
    rcases runStages_pure a stages h with ⟨v, st', n, hr, hp⟩ | ⟨st', n, hr, hp⟩
    · rw [srcOf_cons, drainFrom_cons_emit hr]
      exact ih st' hp
    · rw [srcOf_cons, drainFrom_cons_skip hr]
      exact ih st' hp

/-- C8.  A completion result flows straight through: a pull that meets the
source's `done` signal returns the terminal value to the consumer
unchanged, consumes nothing else, evaluates no stage behavior on it (every
stage state is untouched, zero user-function calls); for any chain of pure
stages a full drive surfaces exactly the source's terminal value; and once
the source is exhausted, all later pulls report an undefined value, so the
terminal value appears exactly once. -/
theorem terminal_value_straight_through :
    (∀ (ε α : Type) (r : Option α) (rest : List (SrcRes α)) (stages : List (Stage ε α)),
      pullFrom (SrcRes.done r :: rest) stages = (PullOut.ok ⟨r, true⟩, rest, stages, 0))
    ∧ (∀ (ε α : Type) (l : List α) (r : Option α) (stages : List (Stage ε α)),
      StagesPure stages → (drainFrom (srcOf l r) stages).2.1 = DrainEnd.term r)
    ∧ (∀ (ε α : Type) (k : Nat) (stages : List (Stage ε α)),
      nthPull k ([] : List (SrcRes α)) stages = PullOut.ok ⟨none, true⟩) := by
  refine ⟨fun ε α r rest stages => rfl,
    fun ε α l r stages h => drain_pure_term l r stages h,
    fun ε α k stages => ?_⟩
  induction k with
  | zero => rfl
  | succ k ih => simpa [nthPull, pullFrom] using ih

/-- Witness: `terminal_value_straight_through` on the scenario chain
`filter(x % 2 == 0).map(x * 4)` over `1..5` with terminal `999`. -/
theorem terminal_value_straight_through_witness :
    (drainFrom (srcOf ([1, 2, 3, 4, 5] : List Int) (some 999))
        (attachMap (fun a => Except.ok (ε := Unit) (a * 4))
          (attachFilter (fun a => Except.ok (decide (a % 2 = 0))) []))).2.1
      = DrainEnd.term (some 999) :=
  terminal_value_straight_through.2.1 Unit Int [1, 2, 3, 4, 5] (some 999) _ (by
    intro s hs
    simp [attachMap, attachFilter] at hs
    rcases hs with h | h <;> subst h <;> exact fun a => ⟨_, rfl⟩)

/-- A loop iteration that continues shifts the fuel by one. -/
theorem syncRun_step {c c' : SyncConf ε α} (h : syncStep c = .inl c') (n : Nat) :
    syncRun (n + 1) c = syncRun n c' := by
  simp [syncRun, h]

/-- A loop iteration that returns ends the run. -/
theorem syncRun_out {c : SyncConf ε α}
    {out : PullOut ε α × List (SrcRes α) × List (Stage ε α)}
    (h : syncStep c = .inr out) (n : Nat) :
    syncRun (n + 1) c = some out := by
  simp [syncRun, h]

/-- Once the loop has returned, extra fuel does not change the result. -/
theorem syncRun_stable :
    ∀ (n : Nat) (c : SyncConf ε α) (out : PullOut ε α × List (SrcRes α) × List (Stage ε α)),
      syncRun n c = some out → syncRun (n + 1) c = some out := by
  intro n
  induction n with
  | zero => intro c out h; simp [syncRun] at h
  | succ n ih =>
    intro c out h
    cases hs : syncStep c with
    | inr o =>
      rw [syncRun_out hs] at h ⊢
      exact h
    | inl c' =>
      rw [syncRun_step hs] at h ⊢
      exact ih c' out h

/-- Monotonicity of the loop result in the fuel. -/
theorem syncRun_mono {c : SyncConf ε α}
    {out : PullOut ε α × List (SrcRes α) × List (Stage ε α)} :
    ∀ {n m : Nat}, n ≤ m → syncRun n c = some out → syncRun m c = some out := by
  intro n m h
  induction h with
  | refl => exact id
  | step h ih => exact fun hn => syncRun_stable _ _ _ (ih hn)

/-- The loop, started on an in-flight value, tracks `runStages`: it
returns the emitted value (or the propagated error) with the updated
stages, continues at the root configuration on a skip signal, and never
returns when the walk reaches a stage that does not invoke its callback
synchronously. -/
theorem syncRun_walk :
    ∀ (rest : List (Stage ε α)) (a : α) (accRev : List (Stage ε α)) (src : List (SrcRes α)),
      (∀ v st n, runStages a rest = RunOut.emit v st n →
        ∃ k, syncRun k (.walk src a accRev rest)
          = some (.ok ⟨some v, false⟩, src, accRev.reverse ++ st))
      ∧ (∀ st n, runStages a rest = RunOut.skip st n →
        ∃ k, ∀ m, syncRun (k + m) (.walk src a accRev rest)
          = syncRun m (.pull src (accRev.reverse ++ st)))
      ∧ (∀ e st n, runStages a rest = RunOut.err e st n →
        ∃ k, syncRun k (.walk src a accRev rest)
          = some (.err e, src, accRev.reverse ++ st))
      ∧ (∀ st n, runStages a rest = RunOut.stuck st n →
        ∀ k, syncRun k (.walk src a accRev rest) = none) := by
  intro rest
  induction rest with
  | nil =>
    intro a accRev src
    refine ⟨fun v st n h => ?_, fun st n h => ?_, fun e st n h => ?_, fun st n h => ?_⟩
    · obtain ⟨h1, h2, h3⟩ : a = v ∧ [] = st ∧ 0 = n := by simpa [runStages] using h
      subst h1; subst h2
      exact ⟨1, by simp [syncRun, syncStep]⟩
    · simp [runStages] at h
    · simp [runStages] at h
    · simp [runStages] at h
  | cons s rest' ih =>
    intro a accRev src
    rcases hex : execStage s a with ⟨exc, n0⟩
    cases exc with
    | error e0 =>
      have hstep : syncStep (.walk src a accRev (s :: rest'))
          = .inr (.err e0, src, accRev.reverse ++ (s :: rest')) := by
        simp [syncStep, hex]
      refine ⟨fun v st n h => ?_, fun st n h => ?_, fun e st n h => ?_, fun st n h => ?_⟩
      · simp [runStages, hex] at h
      · simp [runStages, hex] at h
      · obtain ⟨h1, h2, h3⟩ : e0 = e ∧ s :: rest' = st ∧ n0 = n := by
          simpa [runStages, hex] using h
        subst h1; subst h2
        exact ⟨1, by rw [syncRun_out hstep]⟩
      · simp [runStages, hex] at h
    | ok pr =>
      rcases pr with ⟨so, s'⟩
      cases so with
      | emitO v' =>
        have hstep : syncStep (.walk src a accRev (s :: rest'))
            = .inl (.walk src v' (s' :: accRev) rest') := by
          simp [syncStep, hex]
        obtain ⟨W1, W2, W3, W4⟩ := ih v' (s' :: accRev) src
        rcases hrun : runStages v' rest' with ⟨v2, st2, m⟩ | ⟨st2, m⟩ | ⟨e2, st2, m⟩ | ⟨st2, m⟩
        · have hrs : runStages a (s :: rest') = RunOut.emit v2 (s' :: st2) (n0 + m) := by
            simp [runStages, hex, hrun]
          refine ⟨fun v st n h => ?_, fun st n h => ?_, fun e st n h => ?_, fun st n h => ?_⟩
          · rw [hrs] at h
            injection h with h1 h2 h3
            subst h1; subst h2
            obtain ⟨k, hk⟩ := W1 v2 st2 m hrun
            refine ⟨k + 1, ?_⟩
            rw [syncRun_step hstep, hk]
            simp
          · rw [hrs] at h; simp at h
          · rw [hrs] at h; simp at h
          · rw [hrs] at h; simp at h
        · have hrs : runStages a (s :: rest') = RunOut.skip (s' :: st2) (n0 + m) := by
            simp [runStages, hex, hrun]
          refine ⟨fun v st n h => ?_, fun st n h => ?_, fun e st n h => ?_, fun st n h => ?_⟩
          · rw [hrs] at h; simp at h
          · rw [hrs] at h
            injection h with h2 h3
            subst h2
            obtain ⟨k, hk⟩ := W2 st2 m hrun
            refine ⟨k + 1, fun m' => ?_⟩
            have e1 : k + 1 + m' = (k + m') + 1 := by omega
            rw [e1, syncRun_step hstep, hk m']
            simp
          · rw [hrs] at h; simp at h
          · rw [hrs] at h; simp at h
        · have hrs : runStages a (s :: rest') = RunOut.err e2 (s' :: st2) (n0 + m) := by
            simp [runStages, hex, hrun]
          refine ⟨fun v st n h => ?_, fun st n h => ?_, fun e st n h => ?_, fun st n h => ?_⟩
          · rw [hrs] at h; simp at h
          · rw [hrs] at h; simp at h
          · rw [hrs] at h
            injection h with h1 h2 h3
            subst h1; subst h2
            obtain ⟨k, hk⟩ := W3 e2 st2 m hrun
            refine ⟨k + 1, ?_⟩
            rw [syncRun_step hstep, hk]
            simp
          · rw [hrs] at h; simp at h
        · have hrs : runStages a (s :: rest') = RunOut.stuck (s' :: st2) (n0 + m) := by
            simp [runStages, hex, hrun]
          refine ⟨fun v st n h => ?_, fun st n h => ?_, fun e st n h => ?_, fun st n h => ?_⟩
          · rw [hrs] at h; simp at h
          · rw [hrs] at h; simp at h
          · rw [hrs] at h; simp at h
          · intro k
            cases k with
            | zero => rfl
            | succ k =>
              rw [syncRun_step hstep]
              exact W4 st2 m hrun k
      | skipO =>
        have hstep : syncStep (.walk src a accRev (s :: rest'))
            = .inl (.pull src (accRev.reverse ++ (s' :: rest'))) := by
          simp [syncStep, hex]
        refine ⟨fun v st n h => ?_, fun st n h => ?_, fun e st n h => ?_, fun st n h => ?_⟩
        · simp [runStages, hex] at h
        · obtain ⟨h2, h3⟩ : s' :: rest' = st ∧ n0 = n := by simpa [runStages, hex] using h
          subst h2
          exact ⟨1, fun m => by rw [Nat.add_comm 1 m, syncRun_step hstep]⟩
        · simp [runStages, hex] at h
        · simp [runStages, hex] at h
      | stuckO =>
        have hstep : syncStep (.walk src a accRev (s :: rest'))
            = .inl (.walk src a accRev (s :: rest')) := by
          simp [syncStep, hex]
        refine ⟨fun v st n h => ?_, fun st n h => ?_, fun e st n h => ?_, fun st n h => ?_⟩
        · simp [runStages, hex] at h
        · simp [runStages, hex] at h
        · simp [runStages, hex] at h
        · intro k
          induction k with
          | zero => rfl
          | succ k ihk => rw [syncRun_step hstep]; exact ihk

/-- The whole pull agrees with the step machine: whenever the pull
returns, some finite number of loop iterations produces exactly its
result, and when the pull hangs, no amount of iterations returns. -/
theorem syncRun_pull :
    ∀ (src : List (SrcRes α)) (stages : List (Stage ε α)),
      ((pullFrom src stages).1 ≠ PullOut.hang →
        ∃ k, syncRun k (.pull src stages)
          = some ((pullFrom src stages).1, (pullFrom src stages).2.1,
              (pullFrom src stages).2.2.1))
      ∧ ((pullFrom src stages).1 = PullOut.hang →
        ∀ k, syncRun k (.pull src stages) = none) := by
  intro src
  induction src with
  | nil =>
    intro stages
    refine ⟨fun _ => ⟨1, rfl⟩, fun h => ?_⟩
    simp [pullFrom] at h
  | cons sres rest ih =>
    intro stages
    cases sres with
    | done r =>
      refine ⟨fun _ => ⟨1, rfl⟩, fun h => ?_⟩
      simp [pullFrom] at h
    | yield a =>
      have hstep : syncStep (.pull (SrcRes.yield a :: rest) stages)
          = .inl (.walk rest a [] stages) := rfl
      obtain ⟨W1, W2, W3, W4⟩ := syncRun_walk stages a [] rest
      rcases hrun : runStages a stages with ⟨v, st, n⟩ | ⟨st, n⟩ | ⟨e, st, n⟩ | ⟨st, n⟩
      · obtain ⟨k, hk⟩ := W1 v st n hrun
        constructor
        · intro _
          refine ⟨k + 1, ?_⟩
          rw [syncRun_step hstep, hk]
          simp [pullFrom, hrun]
        · intro h
          simp [pullFrom, hrun] at h
      · obtain ⟨k1, hk1⟩ := W2 st n hrun
        simp only [List.reverse_nil, List.nil_append] at hk1
        have hproj : pullFrom (SrcRes.yield a :: rest) stages
            = ((pullFrom rest st).1, (pullFrom rest st).2.1, (pullFrom rest st).2.2.1,
               n + (pullFrom rest st).2.2.2) := by
          rcases hp : pullFrom rest st with ⟨o, s2, t2, m⟩
          simp [pullFrom, hrun, hp]
        obtain ⟨IH1, IH2⟩ := ih st
        constructor
        · intro hne
          have hne' : (pullFrom rest st).1 ≠ PullOut.hang := by
            rw [hproj] at hne
            simpa using hne
          obtain ⟨k2, hk2⟩ := IH1 hne'
          refine ⟨1 + k1 + k2, ?_⟩
          have e1 : 1 + k1 + k2 = (k1 + k2) + 1 := by omega
          rw [e1, syncRun_step hstep, hk1 k2, hk2, hproj]
        · intro hh k
          have hh' : (pullFrom rest st).1 = PullOut.hang := by
            rw [hproj] at hh
            simpa using hh
          cases hres : syncRun k (SyncConf.pull (SrcRes.yield a :: rest) stages) with
          | none => rfl
          | some out =>
            exfalso
            have hbig : syncRun (1 + k1 + k) (SyncConf.pull (SrcRes.yield a :: rest) stages)
                = some out := syncRun_mono (by omega) hres
            have heq : syncRun (1 + k1 + k) (SyncConf.pull (SrcRes.yield a :: rest) stages)
                = syncRun k (SyncConf.pull rest st) := by
              have e1 : 1 + k1 + k = (k1 + k) + 1 := by omega
              rw [e1, syncRun_step hstep, hk1 k]
            rw [heq, IH2 hh' k] at hbig
            exact Option.noConfusion hbig
      · obtain ⟨k, hk⟩ := W3 e st n hrun
        constructor
        · intro _
          refine ⟨k + 1, ?_⟩
          rw [syncRun_step hstep, hk]
          simp [pullFrom, hrun]
        · intro h
          simp [pullFrom, hrun] at h
      · constructor
        · intro hne
          exact absurd (by simp [pullFrom, hrun]) hne
        · intro _ k
          cases k with
          | zero => rfl
          | succ k =>
            rw [syncRun_step hstep]
            exact W4 st n hrun k

/-- C9.  The synchronous strategy is a trampoline: a pull-next call
computes exactly what iterating the non-recursive loop body `syncStep`
computes (and a pull that never returns corresponds to the loop iterating
forever).  Each `syncStep` application is one iteration of the `while`
loop inside `syncSequence`/`pushValue` of `src/unnamed/part_000` (the
variant in `src/index.js` keeps the same work list in an explicit array);
the loop body performs a fixed amount of work per iteration - one stage
`exec` or one root re-pull - so the call-stack depth during a pull is a
constant, independent of the number of items, stages, and skip-triggered
re-pulls. -/
theorem syncSequence_trampoline :
    ∀ (ε α : Type) (src : List (SrcRes α)) (stages : List (Stage ε α)),
      ((pullFrom src stages).1 ≠ PullOut.hang →
        ∃ k, syncRun k (.pull src stages)
          = some ((pullFrom src stages).1, (pullFrom src stages).2.1,
              (pullFrom src stages).2.2.1))
      ∧ ((pullFrom src stages).1 = PullOut.hang →
        ∀ k, syncRun k (.pull src stages) = none) :=
  fun _ _ src stages => syncRun_pull src stages

/-- Witness: the trampoline computes the pull that emits `1` from the
operator-free pipeline over the one-item source. -/
theorem syncSequence_trampoline_witness :
    ∃ k, syncRun k (SyncConf.pull [SrcRes.yield (1 : Int)] ([] : List (Stage Unit Int)))
      = some (PullOut.ok ⟨some 1, false⟩, [], []) :=
  (syncSequence_trampoline Unit Int [SrcRes.yield 1] []).1 (by decide)

end Coseq
